import Mathlib

/-!
Shallow embedding of the GophDrive storage subsystem, covering:

* the ephemeral (in-memory map) storage adapter
  (`backend/internal/adapter/memory/memory.go`, map-mode code paths),
* the session lock manager's in-memory implementation
  (`backend/internal/session/mock_locker.go`, mirroring
  `backend/internal/session/lock.go`),
* the per-tenant adapter providers
  (`memory.Provider.GetAdapter` and `googledrive.Provider.GetAdapter`).

Modelling conventions:

* Go `map[K]V` becomes an association list `List (K × V)` with first-match
  lookup (`mapFind`) and update-or-append assignment (`mapSet`); real Go maps
  have unique keys, which theorems assume via `KeysNodup` where needed.
* Go strings used as names and content become `List Char`; identifiers and
  MIME types stay `String`.
* `uuid.New().String()` (used for fresh ETags and instance creation) is
  modelled by a strictly increasing `Nat` counter carried in the state: each
  generated token is the current counter value, and the counter is bumped.
  Freshness of uuids corresponds to the invariant that every stored token is
  below the counter (`StoreFresh`).
* `time.Now().Unix()` becomes an explicit `now : Nat` argument.
* Unbounded Go recursion (`deleteFileMap`, `isDescendant`) is embedded with a
  fuel parameter; `none` means the recursion exceeded every finite depth
  budget, i.e. the Go original does not terminate on that input.
-/

set_option autoImplicit false

namespace GophDrive

/-! ## Generic association-list maps (Go `map[K]V`) -/

def mapFind {α β : Type} [DecidableEq α] : List (α × β) → α → Option β
  | [], _ => none
  | e :: rest, k => if e.1 = k then some e.2 else mapFind rest k

def mapSet {α β : Type} [DecidableEq α] (m : List (α × β)) (k : α) (v : β) :
    List (α × β) :=
  if (mapFind m k).isSome then
    m.map (fun e => if e.1 = k then (k, v) else e)
  else
    m ++ [(k, v)]

def mapErase {α β : Type} [DecidableEq α] (m : List (α × β)) (k : α) :
    List (α × β) :=
  m.filter (fun e => e.1 ≠ k)

abbrev KeysNodup {α β : Type} (m : List (α × β)) : Prop :=
  (m.map Prod.fst).Nodup

/-! ## Character-list string helpers (Go `strings` package operations) -/

def toLowerL (s : List Char) : List Char := s.map Char.toLower

def listStartsWith : List Char → List Char → Bool
  | _, [] => true
  | [], _ :: _ => false
  | a :: as, b :: bs => a = b && listStartsWith as bs

def listContainsSub (s sub : List Char) : Bool :=
  listStartsWith s sub ||
    match s with
    | [] => false
    | _ :: rest => listContainsSub rest sub

def listEndsWith (s sfx : List Char) : Bool :=
  listStartsWith s.reverse sfx.reverse

/-- Go `containsIgnoreCase(s, substr)`: case-insensitive substring test via
`strings.Contains(strings.ToLower(s), strings.ToLower(substr))`. -/
def containsIgnoreCase (s sub : List Char) : Bool :=
  listContainsSub (toLowerL s) (toLowerL sub)

/-- The reserved internal suffix `mdExt = ".md"` of the ephemeral adapter. -/
def mdExt : List Char := ['.', 'm', 'd']

/-- Go `toMemoryName`: append the `.md` extension unless already present. -/
def toMemoryName (name : List Char) : List Char :=
  if listEndsWith name mdExt then name else name ++ mdExt

/-- Go `fromMemoryName`: `strings.TrimSuffix(name, mdExt)`. -/
def fromMemoryName (name : List Char) : List Char :=
  if listEndsWith name mdExt then name.take (name.length - mdExt.length)
  else name

/-! ## Data model (`backend/internal/adapter/adapter.go`) -/

/-- The folder MIME type `application/vnd.google-apps.folder`. -/
def folderMime : String := "application/vnd.google-apps.folder"

structure FileMetadata where
  id : String
  name : List Char
  mimeType : String
  modifiedTime : Nat
  size : Nat
  etag : Nat
  parents : List String
  starred : Bool
  deriving DecidableEq, Repr

structure MemFile extends FileMetadata where
  content : List Char
  deriving DecidableEq, Repr

inductive AdapterErr where
  | notFound
  | preconditionFailed
  | contentTooLarge
  | nameTooLong
  | itemLimitReached
  deriving DecidableEq, Repr

abbrev Store := List (String × MemFile)

/-- Ephemeral adapter state (map mode, `client == nil`): the `files` map, the
tenant base folder pointer, and the uuid-freshness counter. -/
structure MemoryAdapter where
  files : Store
  baseFolderID : String
  fresh : Nat
  deriving Repr

def maxDemoContentSize : Nat := 256 * 1024
def maxDemoTitleLength : Nat := 255
def maxDemoItemCount : Nat := 50

/-- Invariant modelling uuid freshness: every stored ETag was generated at an
earlier counter value than `a.fresh`, hence differs from any newly issued one. -/
abbrev StoreFresh (a : MemoryAdapter) : Prop :=
  ∀ e, e ∈ a.files → e.2.etag < a.fresh

/-! ## Ephemeral adapter operations (map-mode paths of `memory.go`) -/

/-- Go `getFileMap`: lookup; strip the internal suffix on non-folder names. -/
def getFileMap (a : MemoryAdapter) (fileID : String) : Except AdapterErr MemFile :=
  match mapFind a.files fileID with
  | none => Except.error AdapterErr.notFound
  | some f =>
      Except.ok { f with
        name := if f.mimeType = folderMime then f.name else fromMemoryName f.name }

/-- Go `etag != "" && f.ETag != etag`: the empty client tag is `none`. -/
def etagConflict : Option Nat → Nat → Bool
  | none, _ => false
  | some e, cur => e ≠ cur

/-- Go `saveFileMap`: conditional overwrite guarded by the stored ETag; on
success rewrites content, modification time, size, a fresh ETag, and re-applies
the internal suffix to the stored name. Returns the updated stored metadata. -/
def saveFileMap (a : MemoryAdapter) (fileID : String) (content : List Char)
    (etag? : Option Nat) (now : Nat) :
    Except AdapterErr FileMetadata × MemoryAdapter :=
  match mapFind a.files fileID with
  | none => (Except.error AdapterErr.notFound, a)
  | some f =>
      if etagConflict etag? f.etag then
        (Except.error AdapterErr.preconditionFailed, a)
      else
        let f' := { f with
          content := content
          modifiedTime := now
          etag := a.fresh
          size := content.length
          name := toMemoryName f.name }
        (Except.ok f'.toFileMetadata,
          { a with files := mapSet a.files fileID f', fresh := a.fresh + 1 })

/-- Go `SaveFile` in map mode: the demo content-size quota, then `saveFileMap`. -/
def saveFile (a : MemoryAdapter) (fileID : String) (content : List Char)
    (etag? : Option Nat) (now : Nat) :
    Except AdapterErr FileMetadata × MemoryAdapter :=
  if maxDemoContentSize < content.length then
    (Except.error AdapterErr.contentTooLarge, a)
  else saveFileMap a fileID content etag? now

/-- Go `renameFileMap`: store `toMemoryName(newName)`, fresh ETag; returns the
updated stored metadata (suffix not stripped). -/
def renameFileMap (a : MemoryAdapter) (fileID : String) (newName : List Char)
    (now : Nat) : Except AdapterErr FileMetadata × MemoryAdapter :=
  match mapFind a.files fileID with
  | none => (Except.error AdapterErr.notFound, a)
  | some f =>
      let f' := { f with
        name := toMemoryName newName
        modifiedTime := now
        etag := a.fresh }
      (Except.ok f'.toFileMetadata,
        { a with files := mapSet a.files fileID f', fresh := a.fresh + 1 })

/-- Go `RenameFile` in map mode: the title-length quota, then `renameFileMap`. -/
def renameFile (a : MemoryAdapter) (fileID : String) (newName : List Char)
    (now : Nat) : Except AdapterErr FileMetadata × MemoryAdapter :=
  if maxDemoTitleLength < newName.length then
    (Except.error AdapterErr.nameTooLong, a)
  else renameFileMap a fileID newName now

/-- Go `setStarredMap`: toggle the flag, fresh ETag; returns the updated stored
metadata (name untouched, suffix not stripped). -/
def setStarredMap (a : MemoryAdapter) (fileID : String) (starred : Bool)
    (now : Nat) : Except AdapterErr FileMetadata × MemoryAdapter :=
  match mapFind a.files fileID with
  | none => (Except.error AdapterErr.notFound, a)
  | some f =>
      let f' := { f with
        starred := starred
        modifiedTime := now
        etag := a.fresh }
      (Except.ok f'.toFileMetadata,
        { a with files := mapSet a.files fileID f', fresh := a.fresh + 1 })

/-! ## Recursive delete (`deleteFileMap`), embedded with fuel -/

/-- IDs of the direct children of `fileID`: entries whose parent set contains
`fileID` (the `childrenToDelete` loop of Go `deleteFileMap`). -/
def childIDs (s : Store) (fileID : String) : List String :=
  (s.filter (fun e => fileID ∈ e.2.parents)).map Prod.fst

/-- The loop `for _, childID := range childrenToDelete` with errors of the
recursive calls ignored (`_ = m.deleteFileMap(ctx, childID)`). `none` from a
recursive call (non-termination) propagates. -/
def delChildren (del : Store → String → Option (Except AdapterErr Store)) :
    Store → List String → Option Store
  | s, [] => some s
  | s, c :: cs =>
      match del s c with
      | none => none
      | some (Except.error _) => delChildren del s cs
      | some (Except.ok t) => delChildren del t cs

/-- Go `deleteFileMap`: NotFound when absent, otherwise recursively delete the
children found in the current map, then erase the item itself. The Go original
recurses without any depth bound; `fuel` counts the permitted nesting depth and
`none` means every finite depth is exceeded. -/
def deleteFileMapAux : Nat → Store → String → Option (Except AdapterErr Store)
  | 0, _, _ => none
  | fuel + 1, s, fileID =>
      match mapFind s fileID with
      | none => some (Except.error AdapterErr.notFound)
      | some _ =>
          match delChildren (deleteFileMapAux fuel) s (childIDs s fileID) with
          | none => none
          | some t => some (Except.ok (mapErase t fileID))

/-- Go `DeleteFile` in map mode, lifted to the adapter state. -/
def deleteFileMap (fuel : Nat) (a : MemoryAdapter) (fileID : String) :
    Option (Except AdapterErr MemoryAdapter) :=
  match deleteFileMapAux fuel a.files fileID with
  | none => none
  | some (Except.error e) => some (Except.error e)
  | some (Except.ok s') => some (Except.ok { a with files := s' })

/-- Membership of the deleted subtree: `Reach s root k` holds when `k` is
`root` itself or the parent chain of `k` (through items present in `s`)
transitively reaches `root`. -/
inductive Reach (s : Store) (root : String) : String → Prop where
  | refl : Reach s root root
  | step (p k : String) (f : MemFile) : Reach s root p →
      mapFind s k = some f → p ∈ f.parents → Reach s root k

/-! ## Ancestor walk (`isDescendant`), embedded with fuel -/

abbrev ParentMap := List (String × List String)

/-- The parent map Go builds before a recursive listing:
`parentMap[f.ID] = f.Parents`. -/
def pmOf (s : Store) : ParentMap :=
  s.map (fun e => (e.2.id, e.2.parents))

/-- One level of Go `isDescendant`: iterate the parent list; match the target;
skip empty and root sentinels; recurse (`next`) into a known parent's own
parents. `none` from the recursion propagates. -/
def isDescFrom (next : List String → Option Bool) (pm : ParentMap)
    (target : String) : List String → Option Bool
  | [] => some false
  | p :: rest =>
      if p = target then some true
      else if p = "" ∨ p = "root" then isDescFrom next pm target rest
      else
        match mapFind pm p with
        | none => isDescFrom next pm target rest
        | some ps =>
            match next ps with
            | none => none
            | some true => some true
            | some false => isDescFrom next pm target rest

/-- Fuelled Go `isDescendant` body: each recursion step into an ancestor's
parent list consumes one unit of fuel. -/
def isDescAux : Nat → ParentMap → String → List String → Option Bool
  | 0, _, _, _ => none
  | fuel + 1, pm, target, parents =>
      if target = "root" then some true
      else isDescFrom (isDescAux fuel pm target) pm target parents

/-- Go `isDescendant(fileParents, targetFolderID, allItems)`: the literal root
is a universal ancestor; otherwise walk the parent chain. -/
def isDescendant (fuel : Nat) (pm : ParentMap) (parents : List String)
    (target : String) : Option Bool :=
  isDescAux fuel pm target parents

/-- Propositional meaning of a successful walk from a single parent `p`:
either `p` is the target, or `p` is a real id whose recorded parents contain a
node from which the walk succeeds. -/
inductive AncWalk (pm : ParentMap) (target : String) : String → Prop where
  | hit : AncWalk pm target target
  | step (p q : String) (ps : List String) : p ≠ "" → p ≠ "root" →
      mapFind pm p = some ps → q ∈ ps → AncWalk pm target q → AncWalk pm target p

/-- The rank hypothesis expressing an acyclic parent graph: some measure
strictly decreases along every recorded parent edge. -/
abbrev RankOK (pm : ParentMap) (rank : String → Nat) : Prop :=
  ∀ e, e ∈ pm → ∀ q, q ∈ e.2 → rank q < rank e.1

/-- Divergence of the ancestor walk: no finite recursion budget completes,
i.e. the unbounded Go recursion does not terminate on this input. -/
def isDescDiverges (pm : ParentMap) (parents : List String)
    (target : String) : Prop :=
  ∀ fuel, isDescendant fuel pm parents target = none

/-! ## Recursive search (`searchFilesMap`) -/

/-- The scoping target of recursive listings: the configured base folder, or
the literal root when none is configured. -/
def baseTarget (a : MemoryAdapter) : String :=
  if a.baseFolderID = "" then "root" else a.baseFolderID

/-- The loop body of Go `searchFilesMap`: skip folders, skip names without the
internal suffix, skip items not reachable from the scoping target, then match
the query case-insensitively against the stored name or the raw content. -/
def searchGo (fuel : Nat) (pm : ParentMap) (target : String) (q : List Char) :
    Store → Option (List FileMetadata)
  | [] => some []
  | e :: rest =>
      let f := e.2
      if f.mimeType = folderMime then searchGo fuel pm target q rest
      else if ¬ listEndsWith f.name mdExt then searchGo fuel pm target q rest
      else
        match isDescendant fuel pm f.parents target with
        | none => none
        | some false => searchGo fuel pm target q rest
        | some true =>
            if containsIgnoreCase f.name q || containsIgnoreCase f.content q then
              match searchGo fuel pm target q rest with
              | none => none
              | some ms =>
                  some ({ f.toFileMetadata with
                    name := if f.mimeType = folderMime then f.name
                            else fromMemoryName f.name } :: ms)
            else searchGo fuel pm target q rest

/-- Go `searchFilesMap`: build the parent map, then filter the whole store. -/
def searchFilesMap (fuel : Nat) (a : MemoryAdapter) (q : List Char) :
    Option (List FileMetadata) :=
  searchGo fuel (pmOf a.files) (baseTarget a) q a.files

/-- Store invariant: every non-folder item is stored under the internal
suffix. All map-mode write paths establish it via `toMemoryName`. -/
abbrev SuffixInv (s : Store) : Prop :=
  ∀ e, e ∈ s → e.2.mimeType ≠ folderMime → listEndsWith e.2.name mdExt = true

/-- Store invariant of a Go map keyed by the item id: the key of each entry is
the id recorded in the item itself. -/
abbrev IDCoherent (s : Store) : Prop :=
  ∀ e, e ∈ s → e.2.id = e.1

/-- The conditions under which the `searchFilesMap` loop emits `meta` for the
store entry `e`: non-folder, internally suffixed name, reachable from the
scoping target, case-insensitive match on stored name or raw content, and
`meta` is the entry's metadata with the suffix stripped. -/
def searchClauses (pm : ParentMap) (target : String) (q : List Char)
    (e : String × MemFile) (meta : FileMetadata) : Prop :=
  e.2.mimeType ≠ folderMime ∧ listEndsWith e.2.name mdExt = true ∧
  (target = "root" ∨ ∃ p, p ∈ e.2.parents ∧ AncWalk pm target p) ∧
  (containsIgnoreCase e.2.name q || containsIgnoreCase e.2.content q) = true ∧
  meta = { e.2.toFileMetadata with name := fromMemoryName e.2.name }

/-! ## Session locks (`mock_locker.go`, mirroring `lock.go`) -/

structure EditingSession where
  fileID : String
  userID : String
  expiresAt : Nat
  deriving DecidableEq, Repr

inductive LockErr where
  | lockedByAnotherUser
  | lockNotFoundOrNotOwned
  deriving DecidableEq, Repr

abbrev LockState := List (String × EditingSession)

/-- `session.DefaultTTL` (5 minutes) in seconds. -/
def defaultTTL : Nat := 300

/-- Go `MockLocker.AcquireLock`: reject only when an existing record is
unexpired (`ExpiresAt > now`) and held by a different user; otherwise write a
fresh record. The failure value is the constant error
`"file is locked by another user"`. -/
def acquireLockMock (st : LockState) (fileID userID : String) (now ttl : Nat) :
    Except LockErr EditingSession × LockState :=
  let expiresAt := now + ttl
  match mapFind st fileID with
  | some existing =>
      if now < existing.expiresAt ∧ existing.userID ≠ userID then
        (Except.error LockErr.lockedByAnotherUser, st)
      else
        (Except.ok ⟨fileID, userID, expiresAt⟩,
          mapSet st fileID ⟨fileID, userID, expiresAt⟩)
  | none =>
      (Except.ok ⟨fileID, userID, expiresAt⟩,
        mapSet st fileID ⟨fileID, userID, expiresAt⟩)

/-- Go `MockLocker.Heartbeat`: fail (constant error `"lock not found or not
owned by user"`) when the record is absent or owned by someone else; otherwise
set `ExpiresAt` to `now + ttl`. The stored expiry is never consulted. -/
def heartbeatMock (st : LockState) (fileID userID : String) (now ttl : Nat) :
    Except LockErr EditingSession × LockState :=
  match mapFind st fileID with
  | none => (Except.error LockErr.lockNotFoundOrNotOwned, st)
  | some existing =>
      if existing.userID ≠ userID then
        (Except.error LockErr.lockNotFoundOrNotOwned, st)
      else
        let s := { existing with expiresAt := now + ttl }
        (Except.ok s, mapSet st fileID s)

/-! ## Providers (`memory.Provider.GetAdapter`, `googledrive.Provider.GetAdapter`) -/

/-- The auth service as seen by the providers: `GetUserToken` either yields a
token carrying `BaseFolderID` (`some base`) or fails (`none`). The memory
provider may have no auth service at all (outer `Option`). -/
abbrev AuthLookup := String → Option String

/-- State of `memory.Provider`: the per-tenant cache of adapter instances.
Pointer identity of cached `*MemoryAdapter` values is modelled by a `Nat`
instance id allocated from `nextInst`; `instBase` carries each live instance's
mutable `BaseFolderID` field. -/
structure ProviderState where
  stores : List (String × Nat)
  instBase : List (Nat × String)
  nextInst : Nat
  deriving Repr

/-- Go `memory.Provider.GetAdapter`: create and cache an adapter on first
resolution (base folder read from the auth service when available), then on
every call re-read the token and update the cached instance's base folder.
Returns the cached instance. -/
def getAdapterMemory (auth : Option AuthLookup) (p : ProviderState)
    (userID : String) : Nat × ProviderState :=
  let p1 :=
    match mapFind p.stores userID with
    | some _ => p
    | none =>
        let base :=
          match auth with
          | none => ""
          | some lookup =>
              match lookup userID with
              | some b => b
              | none => ""
        { stores := mapSet p.stores userID p.nextInst
          instBase := mapSet p.instBase p.nextInst base
          nextInst := p.nextInst + 1 }
  let inst :=
    match mapFind p1.stores userID with
    | some i => i
    | none => 0
  let p2 :=
    match auth with
    | none => p1
    | some lookup =>
        match lookup userID with
        | none => p1
        | some b => { p1 with instBase := mapSet p1.instBase inst b }
  (inst, p2)

/-- Go `googledrive.Provider.GetAdapter`: no cache; every call resolves the
base folder and constructs a brand new `DriveAdapter`. The fresh allocation is
modelled by returning the current instance counter and bumping it. -/
def getAdapterDrive (auth : AuthLookup) (nextInst : Nat) (userID : String) :
    (Nat × String) × Nat :=
  let base :=
    match auth userID with
    | some b => b
    | none => ""
  ((nextInst, base), nextInst + 1)

/-! ## Concrete fixtures used by witness and counterexample theorems -/

/-- A stored markdown note as the map-mode adapter keeps it: internal name
with the reserved suffix, ETag issued at counter value 2. -/
def noteFile : MemFile :=
  ⟨⟨"f1", "Note.md".toList, "text/markdown", 0, 1, 2, ["root"], false⟩,
    "x".toList⟩

/-- A one-file adapter state whose uuid counter is ahead of every stored ETag. -/
def demoAdapter : MemoryAdapter := ⟨[("f1", noteFile)], "", 5⟩

/-- A top-level folder used by the recursive-delete witness. -/
def dirFolder : MemFile :=
  ⟨⟨"d", "Dir".toList, "application/vnd.google-apps.folder", 0, 0, 1,
    ["root"], false⟩, []⟩

/-- A note stored inside `dirFolder`. -/
def childNote : MemFile :=
  ⟨⟨"c", "Kid.md".toList, "text/markdown", 0, 1, 2, ["d"], false⟩, "k".toList⟩

/-- A note outside `dirFolder`'s subtree. -/
def otherNote : MemFile :=
  ⟨⟨"z", "Zed.md".toList, "text/markdown", 0, 1, 3, ["root"], false⟩,
    "z".toList⟩

/-- A three-item adapter state: a folder with one child, plus an unrelated
top-level note. -/
def treeAdapter : MemoryAdapter :=
  ⟨[("d", dirFolder), ("c", childNote), ("z", otherNote)], "", 9⟩

/-! ## Association-list map lemmas -/

theorem mapFind_some_mem {α β : Type} [DecidableEq α] {m : List (α × β)} {k : α}
    {v : β} (h : mapFind m k = some v) : (k, v) ∈ m := by
  induction m with
  | nil => simp [mapFind] at h
  | cons e rest ih =>
      obtain ⟨a, b⟩ := e
      simp only [mapFind] at h
      by_cases hk : a = k
      · rw [if_pos hk] at h
        have hv : b = v := Option.some.inj h
        subst hk; subst hv
        exact List.mem_cons_self _ _
      · rw [if_neg hk] at h
        exact List.mem_cons_of_mem _ (ih h)

theorem mapFind_eq_some_of_mem {α β : Type} [DecidableEq α] {m : List (α × β)}
    {k : α} {v : β} (hn : KeysNodup m) (h : (k, v) ∈ m) : mapFind m k = some v := by
  induction m with
  | nil => simp at h
  | cons e rest ih =>
      simp only [KeysNodup, List.map_cons, List.nodup_cons] at hn
      rcases List.mem_cons.mp h with rfl | hmem
      · simp [mapFind]
      · have hk : e.1 ≠ k := by
          intro hk
          exact hn.1 (hk ▸ List.mem_map_of_mem Prod.fst hmem)
        simp only [mapFind, if_neg hk]
        exact ih hn.2 hmem

theorem mapFind_eq_none_iff {α β : Type} [DecidableEq α] {m : List (α × β)}
    {k : α} : mapFind m k = none ↔ ∀ v, (k, v) ∉ m := by
  induction m with
  | nil => simp [mapFind]
  | cons e rest ih =>
      simp only [mapFind, List.mem_cons]
      by_cases hk : e.1 = k
      · simp only [if_pos hk]
        constructor
        · intro h; cases h
        · intro h
          exact absurd (Or.inl (by rw [← hk])) (h e.2)
      · simp only [if_neg hk, ih]
        constructor
        · intro h v hv
          rcases hv with rfl | hv
          · exact hk rfl
          · exact h v hv
        · intro h v hv
          exact h v (Or.inr hv)

theorem mapFind_append {α β : Type} [DecidableEq α] (m m' : List (α × β)) (k : α) :
    mapFind (m ++ m') k =
      match mapFind m k with
      | some v => some v
      | none => mapFind m' k := by
  induction m with
  | nil => simp [mapFind]
  | cons e rest ih =>
      by_cases hk : e.1 = k <;> simp [mapFind, hk, ih]

theorem mapFind_map_replace {α β : Type} [DecidableEq α] (m : List (α × β))
    (k j : α) (v : β) :
    mapFind (m.map fun e => if e.1 = k then (k, v) else e) j =
      if j = k then ((mapFind m k).map fun _ => v) else mapFind m j := by
  induction m with
  | nil => by_cases hjk : j = k <;> simp [mapFind, hjk]
  | cons e rest ih =>
      by_cases hek : e.1 = k
      · by_cases hjk : j = k
        · subst hjk
          simp [mapFind, hek, ih]
        · have hkj : ¬ k = j := fun h => hjk h.symm
          simp [mapFind, hek, hjk, hkj, ih]
      · by_cases hej : e.1 = j
        · have hjk : ¬ j = k := fun h => hek (h ▸ hej)
          simp [mapFind, hek, hej, hjk]
        · simp [mapFind, hek, hej, ih]

theorem mapFind_mapSet {α β : Type} [DecidableEq α] (m : List (α × β)) (k j : α)
    (v : β) :
    mapFind (mapSet m k v) j = if j = k then some v else mapFind m j := by
  unfold mapSet
  cases hfind : mapFind m k with
  | some v0 =>
      rw [if_pos (by simp [hfind]), mapFind_map_replace]
      by_cases hjk : j = k <;> simp [hjk, hfind]
  | none =>
      rw [if_neg (by simp [hfind]), mapFind_append]
      by_cases hjk : j = k
      · subst hjk
        simp [hfind, mapFind]
      · have hkj : ¬ k = j := fun h => hjk h.symm
        cases hfj : mapFind m j <;> simp [mapFind, hjk, hkj, hfj]

theorem mapFind_mapErase {α β : Type} [DecidableEq α] (m : List (α × β)) (k j : α) :
    mapFind (mapErase m k) j = if j = k then none else mapFind m j := by
  induction m with
  | nil => simp [mapErase, mapFind]
  | cons e rest ih =>
      simp only [mapErase, List.filter_cons] at ih ⊢
      by_cases hek : e.1 = k
      · rw [if_neg (by simp [hek])]
        rw [ih]
        by_cases hjk : j = k
        · simp [hjk]
        · simp [hjk, mapFind, show ¬ e.1 = j from by
            rw [hek]; exact fun h => hjk h.symm]
      · rw [if_pos (by simp [hek])]
        by_cases hej : e.1 = j
        · have hjk : ¬ j = k := fun h => hek (h ▸ hej)
          simp [mapFind, hej, hjk]
        · simp only [mapFind, if_neg hej]
          exact ih

theorem mapErase_sublist {α β : Type} [DecidableEq α] (m : List (α × β)) (k : α) :
    (mapErase m k).Sublist m :=
  List.filter_sublist m

theorem keysNodup_of_sublist {α β : Type} {t m : List (α × β)}
    (h : t.Sublist m) (hn : KeysNodup m) : KeysNodup t :=
  List.Nodup.sublist (List.Sublist.map Prod.fst h) hn

theorem mapFind_of_sublist {α β : Type} [DecidableEq α] {t m : List (α × β)}
    (h : t.Sublist m) (hn : KeysNodup m) {k : α} {v : β}
    (hf : mapFind t k = some v) : mapFind m k = some v :=
  mapFind_eq_some_of_mem hn (h.subset (mapFind_some_mem hf))

theorem mapFind_sublist_agree {α β : Type} [DecidableEq α] {t m : List (α × β)}
    (h : t.Sublist m) (hn : KeysNodup m) (k : α) :
    mapFind t k = none ∨ mapFind t k = mapFind m k := by
  cases hf : mapFind t k with
  | none => exact Or.inl rfl
  | some v => exact Or.inr (mapFind_of_sublist h hn hf).symm

/-! ## C2: AcquireLock -/

/-- C2 (counterexample): the claim "AcquireLock succeeds iff no record exists,
or the existing record's expiry has already passed, or the owner matches;
otherwise it fails with a LockConflict carrying the current owner and expiry"
fails on the code. At `now = 100` with a stored record `(owner "alice",
expiry 100)` the expiry has not yet passed (GetLockStatus would still report
the lock as held since it only treats `expiresAt < now` as expired) and the
owner differs, yet AcquireLock by "bob" succeeds. Moreover the conflict error
is one constant value: two states with different owners and expiries produce
identical errors, so the error carries neither the owner nor the expiry. -/
theorem c2_acquireLock_counterexample :
    (acquireLockMock [("f", ⟨"f", "alice", 100⟩)] "f" "bob" 100 300).1 =
      Except.ok ⟨"f", "bob", 400⟩ ∧
    ¬ (100 < 100) ∧
    (acquireLockMock [("f", ⟨"f", "alice", 500⟩)] "f" "bob" 100 300).1 =
      Except.error LockErr.lockedByAnotherUser ∧
    (acquireLockMock [("f", ⟨"f", "carol", 777⟩)] "f" "bob" 100 300).1 =
      Except.error LockErr.lockedByAnotherUser :=
  ⟨rfl, by decide, rfl, rfl⟩

/-- C2 (amended): AcquireLock succeeds — writing a record with owner `userID`
and fresh expiry `now + ttl` — exactly when no record exists, or the stored
expiry is `≤ now`, or the stored owner equals `userID`; otherwise it fails
with the constant error "file is locked by another user", which carries
neither the holder's identity nor the expiry, and leaves the table unchanged. -/
theorem c2_acquireLock_amended (st : LockState) (fileID userID : String)
    (now ttl : Nat) :
    (mapFind st fileID = none →
      acquireLockMock st fileID userID now ttl =
        (Except.ok ⟨fileID, userID, now + ttl⟩,
          mapSet st fileID ⟨fileID, userID, now + ttl⟩)) ∧
    (∀ ex, mapFind st fileID = some ex →
      ex.expiresAt ≤ now ∨ ex.userID = userID →
      acquireLockMock st fileID userID now ttl =
        (Except.ok ⟨fileID, userID, now + ttl⟩,
          mapSet st fileID ⟨fileID, userID, now + ttl⟩)) ∧
    (∀ ex, mapFind st fileID = some ex → now < ex.expiresAt →
      ex.userID ≠ userID →
      acquireLockMock st fileID userID now ttl =
        (Except.error LockErr.lockedByAnotherUser, st)) := by
  refine ⟨?_, ?_, ?_⟩
  · intro h
    simp [acquireLockMock, h]
  · intro ex h hcond
    have hneg : ¬ (now < ex.expiresAt ∧ ex.userID ≠ userID) := by
      rcases hcond with h1 | h2
      · exact fun hc => absurd hc.1 (by omega)
      · exact fun hc => hc.2 h2
    simp [acquireLockMock, h, hneg]
  · intro ex h h1 h2
    simp [acquireLockMock, h, h1, h2]

/-- C2 witness: the conflict branch of `c2_acquireLock_amended` applied at a
concrete state. -/
theorem c2_acquireLock_amended_witness :
    mapFind [("f", (⟨"f", "alice", 100⟩ : EditingSession))] "f" =
      some ⟨"f", "alice", 100⟩ ∧
    (50 : Nat) < 100 ∧ ("alice" : String) ≠ "bob" ∧
    acquireLockMock [("f", ⟨"f", "alice", 100⟩)] "f" "bob" 50 300 =
      (Except.error LockErr.lockedByAnotherUser,
        [("f", ⟨"f", "alice", 100⟩)]) :=
  ⟨rfl, by decide, by decide,
    (c2_acquireLock_amended [("f", ⟨"f", "alice", 100⟩)] "f" "bob" 50 300).2.2
      ⟨"f", "alice", 100⟩ rfl (by decide) (by decide)⟩

/-! ## C3: Heartbeat -/

/-- C3 (counterexample): the claim "Heartbeat fails when no (unexpired) lock
exists ... the returned expiry is strictly greater than the expiry stored
before the call" fails on the code. First input: the stored lock has expired
(`10 < 400`), so no unexpired lock exists, yet Heartbeat by the stored owner
succeeds (the code never consults the expiry). Second input: a heartbeat
issued within the same epoch second as the previous expiry-issuing call
returns expiry `400`, equal to — not strictly greater than — the stored
`400`. -/
theorem c3_heartbeat_counterexample :
    (10 : Nat) < 400 ∧
    (heartbeatMock [("f", ⟨"f", "u", 10⟩)] "f" "u" 400 300).1 =
      Except.ok ⟨"f", "u", 700⟩ ∧
    (heartbeatMock [("f", ⟨"f", "u", 400⟩)] "f" "u" 100 300).1 =
      Except.ok ⟨"f", "u", 400⟩ :=
  ⟨by decide, rfl, rfl⟩

/-- C3 (amended): Heartbeat fails — with the constant error "lock not found or
not owned by user", leaving the table unchanged and never installing a lock —
exactly when no record exists for `fileID` or the stored owner differs from
`userID`; the stored expiry is not consulted. When the record exists and the
owner matches, it succeeds, and the returned and stored expiry is `now + ttl`,
which is strictly greater than the previous expiry iff the previous expiry was
below `now + ttl` (in particular whenever it was issued at an earlier time). -/
theorem c3_heartbeat_amended (st : LockState) (fileID userID : String)
    (now ttl : Nat) :
    (mapFind st fileID = none →
      heartbeatMock st fileID userID now ttl =
        (Except.error LockErr.lockNotFoundOrNotOwned, st)) ∧
    (∀ ex, mapFind st fileID = some ex → ex.userID ≠ userID →
      heartbeatMock st fileID userID now ttl =
        (Except.error LockErr.lockNotFoundOrNotOwned, st)) ∧
    (∀ ex, mapFind st fileID = some ex → ex.userID = userID →
      heartbeatMock st fileID userID now ttl =
        (Except.ok ⟨ex.fileID, ex.userID, now + ttl⟩,
          mapSet st fileID ⟨ex.fileID, ex.userID, now + ttl⟩)) := by
  refine ⟨?_, ?_, ?_⟩
  · intro h
    simp [heartbeatMock, h]
  · intro ex h hne
    simp [heartbeatMock, h, hne]
  · intro ex h hown
    simp [heartbeatMock, h, hown]

/-- C3 witness: the success branch of `c3_heartbeat_amended` at a concrete
state, showing the expiry moving from 10 to 700 although the lock had already
expired at `now = 400`. -/
theorem c3_heartbeat_amended_witness :
    mapFind [("f", (⟨"f", "u", 10⟩ : EditingSession))] "f" =
      some ⟨"f", "u", 10⟩ ∧
    ("u" : String) = "u" ∧
    heartbeatMock [("f", ⟨"f", "u", 10⟩)] "f" "u" 400 300 =
      (Except.ok ⟨"f", "u", 700⟩, [("f", ⟨"f", "u", 700⟩)]) :=
  ⟨rfl, rfl,
    (c3_heartbeat_amended [("f", ⟨"f", "u", 10⟩)] "f" "u" 400 300).2.2
      ⟨"f", "u", 10⟩ rfl rfl⟩

/-! ## C1: SaveFile ETag precondition -/

/-- C1: on the ephemeral adapter, for every stored file, `SaveFile` with a
non-empty client ETag differing from the stored ETag fails with
PreconditionFailed and leaves the state (content and metadata) unchanged;
with the matching ETag, or with the empty ETag (unconditional overwrite), it
succeeds, stores the new content, and issues a new ETag differing from the
previous one (the counter hypothesis `StoreFresh` models uuid freshness).
The content-size hypothesis keeps the call below the ephemeral quota, an
orthogonal documented failure mode. -/
theorem c1_saveFile_spec (a : MemoryAdapter) (fileID : String)
    (content : List Char) (now : Nat) (f : MemFile)
    (hf : mapFind a.files fileID = some f)
    (hsize : content.length ≤ maxDemoContentSize) (hfresh : StoreFresh a) :
    (∀ e, e ≠ f.etag →
      saveFile a fileID content (some e) now =
        (Except.error AdapterErr.preconditionFailed, a)) ∧
    (∀ etag?, etag? = none ∨ etag? = some f.etag →
      saveFile a fileID content etag? now =
        (Except.ok ⟨f.id, toMemoryName f.name, f.mimeType, now, content.length,
            a.fresh, f.parents, f.starred⟩,
          { a with
            files := mapSet a.files fileID
              ⟨⟨f.id, toMemoryName f.name, f.mimeType, now, content.length,
                  a.fresh, f.parents, f.starred⟩, content⟩
            fresh := a.fresh + 1 }) ∧
      a.fresh ≠ f.etag ∧
      mapFind (mapSet a.files fileID
          ⟨⟨f.id, toMemoryName f.name, f.mimeType, now, content.length,
              a.fresh, f.parents, f.starred⟩, content⟩) fileID =
        some ⟨⟨f.id, toMemoryName f.name, f.mimeType, now, content.length,
            a.fresh, f.parents, f.starred⟩, content⟩) := by
  have hns : ¬ maxDemoContentSize < content.length := not_lt.mpr hsize
  constructor
  · intro e he
    simp [saveFile, hns, saveFileMap, hf, etagConflict, he]
  · intro etag? hcase
    have hconf : etagConflict etag? f.etag = false := by
      rcases hcase with rfl | rfl <;> simp [etagConflict]
    refine ⟨?_, ?_, ?_⟩
    · simp [saveFile, hns, saveFileMap, hf, hconf]
    · exact Nat.ne_of_gt (hfresh (fileID, f) (mapFind_some_mem hf))
    · rw [mapFind_mapSet]
      simp

/-- C1 witness: `c1_saveFile_spec` at the concrete one-file adapter; the stale
tag 9 is rejected and the state is returned unchanged. -/
theorem c1_saveFile_spec_witness :
    mapFind demoAdapter.files "f1" = some noteFile ∧
    ("y".toList).length ≤ maxDemoContentSize ∧
    StoreFresh demoAdapter ∧ (9 : Nat) ≠ noteFile.etag ∧
    saveFile demoAdapter "f1" "y".toList (some 9) 7 =
      (Except.error AdapterErr.preconditionFailed, demoAdapter) :=
  ⟨rfl, by decide, by decide, by decide,
    (c1_saveFile_spec demoAdapter "f1" "y".toList 7 noteFile rfl (by decide)
      (by decide)).1 9 (by decide)⟩

/-! ## C4: every successful mutation changes the ETag -/

/-- C4: on the ephemeral adapter, whenever a content write (`SaveFile`), a
rename (`RenameFile`) or a star toggle (`SetStarred`) succeeds on a stored
item, the stored ETag after the operation (and the returned metadata's ETag)
differs from the item's ETag before the operation. `StoreFresh` models the
freshness of `uuid.New()`. -/
theorem c4_etag_changes (a : MemoryAdapter) (fileID : String) (now : Nat)
    (f : MemFile) (hf : mapFind a.files fileID = some f)
    (hfresh : StoreFresh a) :
    (∀ content etag? meta a',
      saveFile a fileID content etag? now = (Except.ok meta, a') →
      ∃ g, mapFind a'.files fileID = some g ∧ g.etag ≠ f.etag ∧
        meta.etag = g.etag) ∧
    (∀ newName meta a',
      renameFile a fileID newName now = (Except.ok meta, a') →
      ∃ g, mapFind a'.files fileID = some g ∧ g.etag ≠ f.etag ∧
        meta.etag = g.etag) ∧
    (∀ st meta a',
      setStarredMap a fileID st now = (Except.ok meta, a') →
      ∃ g, mapFind a'.files fileID = some g ∧ g.etag ≠ f.etag ∧
        meta.etag = g.etag) := by
  have hne : a.fresh ≠ f.etag :=
    Nat.ne_of_gt (hfresh (fileID, f) (mapFind_some_mem hf))
  refine ⟨?_, ?_, ?_⟩
  · intro content etag? meta a' h
    by_cases hsz : maxDemoContentSize < content.length
    · simp [saveFile, hsz] at h
    · by_cases hc : etagConflict etag? f.etag
      · simp [saveFile, hsz, saveFileMap, hf, hc] at h
      · have hres : saveFile a fileID content etag? now =
            (Except.ok ⟨f.id, toMemoryName f.name, f.mimeType, now,
              content.length, a.fresh, f.parents, f.starred⟩,
            { a with
              files := mapSet a.files fileID
                ⟨⟨f.id, toMemoryName f.name, f.mimeType, now, content.length,
                    a.fresh, f.parents, f.starred⟩, content⟩
              fresh := a.fresh + 1 }) := by
          simp [saveFile, hsz, saveFileMap, hf, hc]
        rw [hres] at h
        have hmeta : (⟨f.id, toMemoryName f.name, f.mimeType, now,
            content.length, a.fresh, f.parents, f.starred⟩ : FileMetadata) =
            meta := Except.ok.inj (congrArg Prod.fst h)
        have ha' : ({ a with
            files := mapSet a.files fileID
              ⟨⟨f.id, toMemoryName f.name, f.mimeType, now, content.length,
                  a.fresh, f.parents, f.starred⟩, content⟩
            fresh := a.fresh + 1 } : MemoryAdapter) = a' :=
          congrArg Prod.snd h
        refine ⟨⟨⟨f.id, toMemoryName f.name, f.mimeType, now, content.length,
          a.fresh, f.parents, f.starred⟩, content⟩, ?_, hne, ?_⟩
        · rw [← ha']
          show mapFind (mapSet a.files fileID _) fileID = _
          rw [mapFind_mapSet]
          simp
        · rw [← hmeta]
  · intro newName meta a' h
    by_cases hsz : maxDemoTitleLength < newName.length
    · simp [renameFile, hsz] at h
    · have hres : renameFile a fileID newName now =
          (Except.ok ⟨f.id, toMemoryName newName, f.mimeType, now, f.size,
            a.fresh, f.parents, f.starred⟩,
          { a with
            files := mapSet a.files fileID
              ⟨⟨f.id, toMemoryName newName, f.mimeType, now, f.size, a.fresh,
                  f.parents, f.starred⟩, f.content⟩
            fresh := a.fresh + 1 }) := by
        simp [renameFile, hsz, renameFileMap, hf]
      rw [hres] at h
      have hmeta : (⟨f.id, toMemoryName newName, f.mimeType, now, f.size,
          a.fresh, f.parents, f.starred⟩ : FileMetadata) = meta :=
        Except.ok.inj (congrArg Prod.fst h)
      have ha' : ({ a with
          files := mapSet a.files fileID
            ⟨⟨f.id, toMemoryName newName, f.mimeType, now, f.size, a.fresh,
                f.parents, f.starred⟩, f.content⟩
          fresh := a.fresh + 1 } : MemoryAdapter) = a' :=
        congrArg Prod.snd h
      refine ⟨⟨⟨f.id, toMemoryName newName, f.mimeType, now, f.size, a.fresh,
        f.parents, f.starred⟩, f.content⟩, ?_, hne, ?_⟩
      · rw [← ha']
        show mapFind (mapSet a.files fileID _) fileID = _
        rw [mapFind_mapSet]
        simp
      · rw [← hmeta]
  · intro st meta a' h
    have hres : setStarredMap a fileID st now =
        (Except.ok ⟨f.id, f.name, f.mimeType, now, f.size, a.fresh,
          f.parents, st⟩,
        { a with
          files := mapSet a.files fileID
            ⟨⟨f.id, f.name, f.mimeType, now, f.size, a.fresh, f.parents, st⟩,
              f.content⟩
          fresh := a.fresh + 1 }) := by
      simp [setStarredMap, hf]
    rw [hres] at h
    have hmeta : (⟨f.id, f.name, f.mimeType, now, f.size, a.fresh, f.parents,
        st⟩ : FileMetadata) = meta := Except.ok.inj (congrArg Prod.fst h)
    have ha' : ({ a with
        files := mapSet a.files fileID
          ⟨⟨f.id, f.name, f.mimeType, now, f.size, a.fresh, f.parents, st⟩,
            f.content⟩
        fresh := a.fresh + 1 } : MemoryAdapter) = a' :=
      congrArg Prod.snd h
    refine ⟨⟨⟨f.id, f.name, f.mimeType, now, f.size, a.fresh, f.parents, st⟩,
      f.content⟩, ?_, hne, ?_⟩
    · rw [← ha']
      show mapFind (mapSet a.files fileID _) fileID = _
      rw [mapFind_mapSet]
      simp
    · rw [← hmeta]

/-- C4 witness: `c4_etag_changes` applied at the concrete one-file adapter to
a successful star toggle: the stored ETag moves off the old value 2. -/
theorem c4_etag_changes_witness :
    mapFind demoAdapter.files "f1" = some noteFile ∧ StoreFresh demoAdapter ∧
    (∃ g, mapFind
        (⟨[("f1", ⟨⟨"f1", "Note.md".toList, "text/markdown", 7, 1, 5,
          ["root"], true⟩, "x".toList⟩)], "", 6⟩ : MemoryAdapter).files "f1" =
      some g ∧ g.etag ≠ noteFile.etag ∧
      (⟨"f1", "Note.md".toList, "text/markdown", 7, 1, 5, ["root"], true⟩ :
        FileMetadata).etag = g.etag) :=
  ⟨rfl, by decide,
    (c4_etag_changes demoAdapter "f1" 7 noteFile rfl (by decide)).2.2 true
      ⟨"f1", "Note.md".toList, "text/markdown", 7, 1, 5, ["root"], true⟩
      ⟨[("f1", ⟨⟨"f1", "Note.md".toList, "text/markdown", 7, 1, 5,
        ["root"], true⟩, "x".toList⟩)], "", 6⟩ rfl⟩

/-! ## C6: the internal suffix in returned names -/

/-- C6 (counterexample): the claim that every public operation returns
non-folder names with the internal ".md" suffix stripped fails on the code:
map-mode `SaveFile` returns the stored internal name. Saving the stored
non-folder item "Note.md" (display name "Note") returns metadata whose Name
is "Note.md", still carrying the suffix. -/
theorem c6_name_counterexample :
    ((saveFileMap demoAdapter "f1" "y".toList none 7).1.toOption.map
      FileMetadata.name) = some "Note.md".toList ∧
    listEndsWith "Note.md".toList mdExt = true ∧
    noteFile.mimeType ≠ folderMime ∧
    fromMemoryName "Note.md".toList = "Note".toList := by decide

/-- C6 (amended): map-mode `GetFile` strips the internal suffix from the
returned non-folder name, but the map-mode mutation paths do not: `SaveFile`
and `RenameFile` return the stored name with the suffix re-applied via
`toMemoryName`, and `SetStarred` returns the stored internal name as-is. -/
theorem c6_suffix_amended (a : MemoryAdapter) (fileID : String) (f : MemFile)
    (hf : mapFind a.files fileID = some f) (hnf : f.mimeType ≠ folderMime) :
    getFileMap a fileID = Except.ok { f with name := fromMemoryName f.name } ∧
    (∀ content now, (saveFileMap a fileID content none now).1 =
      Except.ok ⟨f.id, toMemoryName f.name, f.mimeType, now, content.length,
        a.fresh, f.parents, f.starred⟩) ∧
    (∀ newName now, (renameFileMap a fileID newName now).1 =
      Except.ok ⟨f.id, toMemoryName newName, f.mimeType, now, f.size,
        a.fresh, f.parents, f.starred⟩) ∧
    (∀ st now, (setStarredMap a fileID st now).1 =
      Except.ok ⟨f.id, f.name, f.mimeType, now, f.size, a.fresh,
        f.parents, st⟩) := by
  refine ⟨?_, ?_, ?_, ?_⟩
  · simp [getFileMap, hf, hnf]
  · intro content now
    simp [saveFileMap, hf, etagConflict]
  · intro newName now
    simp [renameFileMap, hf]
  · intro st now
    simp [setStarredMap, hf]

/-- C6 witness: `c6_suffix_amended` at the concrete adapter: `GetFile` shows
the display name "Note" while the rename path re-applies the suffix. -/
theorem c6_suffix_amended_witness :
    mapFind demoAdapter.files "f1" = some noteFile ∧
    noteFile.mimeType ≠ folderMime ∧
    getFileMap demoAdapter "f1" =
      Except.ok { noteFile with name := fromMemoryName noteFile.name } ∧
    fromMemoryName noteFile.name = "Note".toList :=
  ⟨rfl, by decide,
    (c6_suffix_amended demoAdapter "f1" noteFile rfl (by decide)).1,
    by decide⟩

/-! ## C8: provider instance caching -/

/-- C8 (counterexample): the claim that every StorageProvider caches exactly
one adapter per tenant fails on the Google Drive provider, whose `GetAdapter`
constructs a brand new adapter on every call: two consecutive resolutions for
the same tenant yield distinct instances (allocation ids 0 and 1). -/
theorem c8_provider_counterexample :
    (getAdapterDrive (fun _ => some "base") 0 "alice").1.1 = 0 ∧
    (getAdapterDrive (fun _ => some "base")
      (getAdapterDrive (fun _ => some "base") 0 "alice").2 "alice").1.1 = 1 ∧
    (0 : Nat) ≠ 1 :=
  ⟨rfl, rfl, by decide⟩

/-- C8 (amended): the ephemeral (memory) provider caches exactly one adapter
instance per tenant — a second resolution returns the same instance and
allocates nothing new — and every resolution re-reads the tenant's currently
configured base folder from the auth service and updates the cached
instance's base-folder pointer in place; the Google Drive provider performs
no such caching (see the counterexample). -/
theorem c8_provider_amended (auth1 auth2 : AuthLookup) (p : ProviderState)
    (uid b1 b2 : String) (h1 : auth1 uid = some b1)
    (h2 : auth2 uid = some b2) :
    (getAdapterMemory (some auth2)
        (getAdapterMemory (some auth1) p uid).2 uid).1 =
      (getAdapterMemory (some auth1) p uid).1 ∧
    (getAdapterMemory (some auth2)
        (getAdapterMemory (some auth1) p uid).2 uid).2.nextInst =
      (getAdapterMemory (some auth1) p uid).2.nextInst ∧
    mapFind (getAdapterMemory (some auth1) p uid).2.instBase
      (getAdapterMemory (some auth1) p uid).1 = some b1 ∧
    mapFind (getAdapterMemory (some auth2)
        (getAdapterMemory (some auth1) p uid).2 uid).2.instBase
      (getAdapterMemory (some auth1) p uid).1 = some b2 ∧
    mapFind (getAdapterMemory (some auth1) p uid).2.stores uid =
      some (getAdapterMemory (some auth1) p uid).1 := by
  cases hfind : mapFind p.stores uid with
  | none =>
      simp [getAdapterMemory, hfind, h1, h2, mapFind_mapSet]
  | some i =>
      simp [getAdapterMemory, hfind, h1, h2, mapFind_mapSet]

/-- C8 witness: `c8_provider_amended` starting from the empty provider state,
with a tenant whose configured base folder changes from "A" to "B" between
the two resolutions. -/
theorem c8_provider_amended_witness :
    ((fun u => if u = "t1" then some "A" else none) : AuthLookup) "t1" =
      some "A" ∧
    ((fun u => if u = "t1" then some "B" else none) : AuthLookup) "t1" =
      some "B" ∧
    ((getAdapterMemory (some (fun u => if u = "t1" then some "B" else none))
        (getAdapterMemory (some (fun u => if u = "t1" then some "A" else none))
          ⟨[], [], 0⟩ "t1").2 "t1").1 =
      (getAdapterMemory (some (fun u => if u = "t1" then some "A" else none))
        ⟨[], [], 0⟩ "t1").1 ∧
      mapFind (getAdapterMemory
          (some (fun u => if u = "t1" then some "B" else none))
          (getAdapterMemory
            (some (fun u => if u = "t1" then some "A" else none))
            ⟨[], [], 0⟩ "t1").2 "t1").2.instBase
        (getAdapterMemory (some (fun u => if u = "t1" then some "A" else none))
          ⟨[], [], 0⟩ "t1").1 = some "B") := by
  refine ⟨rfl, rfl, ?_, ?_⟩
  · exact (c8_provider_amended _ _ ⟨[], [], 0⟩ "t1" "A" "B" rfl rfl).1
  · exact (c8_provider_amended _ _ ⟨[], [], 0⟩ "t1" "A" "B" rfl rfl).2.2.2.1

/-! ## C9: termination of the ancestor walk -/

/-- C9 (counterexample): the claim that the recursive ancestor walk carries a
visited-set guard and terminates on every parent graph, cycles included,
fails on the code: on the one-node cycle (item "A" whose parents contain "A")
with target "B", the walk exceeds every finite recursion depth — there is no
visited-set guard in `isDescendant`. -/
theorem c9_walk_counterexample : isDescDiverges [("A", ["A"])] ["A"] "B" := by
  intro fuel
  induction fuel with
  | zero => rfl
  | succ n ih =>
      simp only [isDescendant] at ih ⊢
      simp [isDescAux, isDescFrom, mapFind, ih]

/-- C9 (amended): the ancestor walk has no visited-set guard: on a parent
graph with a cycle it does not terminate (the one-node cycle exhausts every
recursion budget), while on an acyclic parent graph — one admitting a rank
strictly decreasing along recorded parent edges — the walk completes within
any recursion budget exceeding the ranks of the starting parents. -/
theorem c9_walk_amended :
    isDescDiverges [("A", ["A"])] ["A"] "B" ∧
    (∀ pm target parents rank fuel, RankOK pm rank → 0 < fuel →
      (∀ p, p ∈ parents → rank p + 1 < fuel) →
      (isDescendant fuel pm parents target).isSome) := by
  constructor
  · intro fuel
    induction fuel with
    | zero => rfl
    | succ n ih =>
        simp only [isDescendant] at ih ⊢
        simp [isDescAux, isDescFrom, mapFind, ih]
  · intro pm target parents rank fuel hrank
    induction fuel generalizing parents with
    | zero =>
        intro h
        exact absurd h (Nat.lt_irrefl 0)
    | succ n ih =>
        intro _ hb
        by_cases hroot : target = "root"
        · simp [isDescendant, isDescAux, hroot]
        · simp only [isDescendant, isDescAux, if_neg hroot]
          induction parents with
          | nil => simp [isDescFrom]
          | cons p rest ihp =>
              have hp : rank p + 1 < n + 1 := hb p (List.mem_cons_self p rest)
              have hrest : ∀ q, q ∈ rest → rank q + 1 < n + 1 := fun q hq =>
                hb q (List.mem_cons_of_mem _ hq)
              simp only [isDescFrom]
              by_cases hptar : p = target
              · simp [hptar]
              · rw [if_neg hptar]
                by_cases h2 : p = "" ∨ p = "root"
                · rw [if_pos h2]
                  exact ihp hrest
                · rw [if_neg h2]
                  cases hfind : mapFind pm p with
                  | none => exact ihp hrest
                  | some ps =>
                      have hips : ∀ q, q ∈ ps → rank q + 1 < n := by
                        intro q hq
                        have hd : rank q < rank p :=
                          hrank (p, ps) (mapFind_some_mem hfind) q hq
                        omega
                      have h0n : 0 < n := by omega
                      have hsome := ih ps h0n hips
                      cases hnext : isDescAux n pm target ps with
                      | none =>
                          rw [isDescendant, hnext] at hsome
                          simp at hsome
                      | some b =>
                          cases b with
                          | true => simp [hnext]
                          | false =>
                              simp only [hnext]
                              exact ihp hrest

/-- C9 witness: the acyclic branch of `c9_walk_amended` on a one-edge parent
graph, with the rank discharging the acyclicity hypothesis. -/
theorem c9_walk_amended_witness :
    RankOK [("P", ["root"])] (fun s => if s = "P" then 1 else 0) ∧
    (0 : Nat) < 3 ∧
    (∀ p, p ∈ ["P"] →
      (fun s : String => if s = "P" then 1 else 0) p + 1 < 3) ∧
    (isDescendant 3 [("P", ["root"])] ["P"] "T").isSome :=
  ⟨by decide, by decide, by decide,
    c9_walk_amended.2 [("P", ["root"])] "T" ["P"]
      (fun s => if s = "P" then 1 else 0) 3 (by decide) (by decide)
      (by decide)⟩

/-! ## String-helper lemmas -/

theorem listStartsWith_iff (s p : List Char) :
    listStartsWith s p = true ↔ ∃ t, s = p ++ t := by
  induction p generalizing s with
  | nil => simp [listStartsWith]
  | cons b bs ih =>
      cases s with
      | nil =>
          simp [listStartsWith]
      | cons a as =>
          simp only [listStartsWith, Bool.and_eq_true, decide_eq_true_eq, ih,
            List.cons_append, List.cons.injEq]
          constructor
          · rintro ⟨rfl, t, rfl⟩
            exact ⟨t, rfl, rfl⟩
          · rintro ⟨t, rfl, rfl⟩
            exact ⟨rfl, t, rfl⟩

theorem listContainsSub_iff (s p : List Char) :
    listContainsSub s p = true ↔ ∃ u v, s = u ++ p ++ v := by
  induction s with
  | nil =>
      simp only [listContainsSub, Bool.or_eq_true, listStartsWith_iff]
      constructor
      · rintro (⟨t, ht⟩ | h)
        · exact ⟨[], t, by simpa using ht⟩
        · cases h
      · rintro ⟨u, v, huv⟩
        have hu : u = [] := by
          cases u
          · rfl
          · simp at huv
        subst hu
        have hp : p = [] := by
          cases p
          · rfl
          · simp at huv
        subst hp
        exact Or.inl ⟨v, by simpa using huv⟩
  | cons c rest ih =>
      simp only [listContainsSub, Bool.or_eq_true, listStartsWith_iff, ih]
      constructor
      · rintro (⟨t, ht⟩ | ⟨u, v, huv⟩)
        · exact ⟨[], t, by simpa using ht⟩
        · exact ⟨c :: u, v, by simp [huv]⟩
      · rintro ⟨u, v, huv⟩
        cases u with
        | nil =>
            exact Or.inl ⟨v, by simpa using huv⟩
        | cons c' u' =>
            simp only [List.cons_append, List.cons.injEq] at huv
            exact Or.inr ⟨u', v, huv.2⟩

theorem listEndsWith_iff (s sfx : List Char) :
    listEndsWith s sfx = true ↔ ∃ u, s = u ++ sfx := by
  simp only [listEndsWith, listStartsWith_iff]
  constructor
  · rintro ⟨t, ht⟩
    refine ⟨t.reverse, ?_⟩
    have := congrArg List.reverse ht
    simpa using this
  · rintro ⟨u, rfl⟩
    exact ⟨u.reverse, by simp⟩

theorem toLowerL_append (a b : List Char) :
    toLowerL (a ++ b) = toLowerL a ++ toLowerL b :=
  List.map_append Char.toLower a b

/-- Any case-insensitive fragment of the reserved suffix matches every name
that carries the suffix, whatever the rest of the name is. -/
theorem containsIgnoreCase_of_suffix (nm q : List Char)
    (hsfx : listEndsWith nm mdExt = true)
    (hq : listContainsSub (toLowerL mdExt) (toLowerL q) = true) :
    containsIgnoreCase nm q = true := by
  obtain ⟨u, rfl⟩ := (listEndsWith_iff nm mdExt).mp hsfx
  obtain ⟨x, y, hxy⟩ := (listContainsSub_iff _ _).mp hq
  unfold containsIgnoreCase
  rw [toLowerL_append, hxy]
  exact (listContainsSub_iff _ _).mpr
    ⟨toLowerL u ++ x, y, by simp⟩

/-! ## Soundness of the fuelled ancestor walk -/

theorem isDescAux_iff (pm : ParentMap) (target : String)
    (hroot : target ≠ "root") :
    ∀ fuel parents b, isDescAux fuel pm target parents = some b →
      (b = true ↔ ∃ p, p ∈ parents ∧ AncWalk pm target p) := by
  intro fuel
  induction fuel with
  | zero =>
      intro parents b h
      exact absurd h (by simp [isDescAux])
  | succ n ih =>
      intro parents b h
      simp only [isDescAux, if_neg hroot] at h
      have main : ∀ L b, isDescFrom (isDescAux n pm target) pm target L =
          some b → (b = true ↔ ∃ p, p ∈ L ∧ AncWalk pm target p) := by
        intro L
        induction L with
        | nil =>
            intro b hb
            simp only [isDescFrom] at hb
            have : false = b := Option.some.inj hb
            subst this
            simp
        | cons p rest ihp =>
            intro b hb
            simp only [isDescFrom] at hb
            by_cases h1 : p = target
            · rw [if_pos h1] at hb
              have : true = b := Option.some.inj hb
              subst this
              subst h1
              simp only [true_iff]
              exact ⟨p, List.mem_cons_self p rest, AncWalk.hit⟩
            · rw [if_neg h1] at hb
              by_cases h2 : p = "" ∨ p = "root"
              · rw [if_pos h2] at hb
                refine (ihp b hb).trans ⟨?_, ?_⟩
                · rintro ⟨x, hx, hw⟩
                  exact ⟨x, List.mem_cons_of_mem p hx, hw⟩
                · rintro ⟨x, hx, hw⟩
                  rcases List.mem_cons.mp hx with rfl | hx'
                  · cases hw with
                    | hit => exact absurd rfl h1
                    | step _ q ps hne hnr _ _ _ =>
                        rcases h2 with h2 | h2
                        · exact absurd h2 hne
                        · exact absurd h2 hnr
                  · exact ⟨x, hx', hw⟩
              · rw [if_neg h2] at hb
                push_neg at h2
                cases hfind : mapFind pm p with
                | none =>
                    rw [hfind] at hb
                    refine (ihp b hb).trans ⟨?_, ?_⟩
                    · rintro ⟨x, hx, hw⟩
                      exact ⟨x, List.mem_cons_of_mem p hx, hw⟩
                    · rintro ⟨x, hx, hw⟩
                      rcases List.mem_cons.mp hx with rfl | hx'
                      · cases hw with
                        | hit => exact absurd rfl h1
                        | step _ q ps _ _ hf _ _ =>
                            rw [hfind] at hf
                            cases hf
                      · exact ⟨x, hx', hw⟩
                | some ps =>
                    rw [hfind] at hb
                    have hb2 : (match isDescAux n pm target ps with
                        | none => none
                        | some true => some true
                        | some false =>
                            isDescFrom (isDescAux n pm target) pm target rest)
                        = some b := hb
                    clear hb
                    cases hnext : isDescAux n pm target ps with
                    | none =>
                        rw [hnext] at hb2
                        cases hb2
                    | some nb =>
                        rw [hnext] at hb2
                        have hb : (match some nb with
                            | none => none
                            | some true => some true
                            | some false =>
                                isDescFrom (isDescAux n pm target) pm target
                                  rest) = some b := hb2
                        cases nb with
                        | true =>
                            have : true = b := Option.some.inj hb
                            subst this
                            simp only [true_iff]
                            obtain ⟨q, hq, hw⟩ :=
                              ((ih ps true hnext).mp rfl)
                            exact ⟨p, List.mem_cons_self p rest,
                              AncWalk.step p q ps h2.1 h2.2 hfind hq hw⟩
                        | false =>
                            refine (ihp b hb).trans ⟨?_, ?_⟩
                            · rintro ⟨x, hx, hw⟩
                              exact ⟨x, List.mem_cons_of_mem p hx, hw⟩
                            · rintro ⟨x, hx, hw⟩
                              rcases List.mem_cons.mp hx with rfl | hx'
                              · cases hw with
                                | hit => exact absurd rfl h1
                                | step _ q ps' _ _ hf hqm hw' =>
                                    rw [hfind] at hf
                                    obtain rfl := Option.some.inj hf
                                    exact absurd ((ih ps false hnext).mpr
                                      ⟨q, hqm, hw'⟩) (by simp)
                              · exact ⟨x, hx', hw⟩
      exact main parents b h

theorem isDescendant_iff {fuel : Nat} {pm : ParentMap} {parents : List String}
    {target : String} {b : Bool}
    (h : isDescendant fuel pm parents target = some b) :
    b = true ↔
      (target = "root" ∨ ∃ p, p ∈ parents ∧ AncWalk pm target p) := by
  by_cases hroot : target = "root"
  · subst hroot
    cases fuel with
    | zero => cases h
    | succ n =>
        simp only [isDescendant, isDescAux, if_pos rfl] at h
        have : true = b := Option.some.inj h
        subst this
        simp
  · refine (isDescAux_iff pm target hroot fuel parents b h).trans ⟨Or.inr, ?_⟩
    intro hx
    exact hx.resolve_left hroot

theorem exists_mem_cons_iff_of_head_fails {α : Type} {P : α → Prop} {x : α}
    {l : List α} (hx : ¬ P x) :
    (∃ y, y ∈ x :: l ∧ P y) ↔ (∃ y, y ∈ l ∧ P y) := by
  constructor
  · rintro ⟨y, hy, hp⟩
    rcases List.mem_cons.mp hy with rfl | hy'
    · exact absurd hp hx
    · exact ⟨y, hy', hp⟩
  · rintro ⟨y, hy, hp⟩
    exact ⟨y, List.mem_cons_of_mem _ hy, hp⟩

/-- Characterization of a completed `searchFilesMap` scan: a metadata value is
emitted exactly when some store entry satisfies `searchClauses`. -/
theorem searchGo_spec (fuel : Nat) (pm : ParentMap) (target : String)
    (q : List Char) :
    ∀ l res, searchGo fuel pm target q l = some res →
      ∀ meta, meta ∈ res ↔ ∃ e, e ∈ l ∧ searchClauses pm target q e meta := by
  intro l
  induction l with
  | nil =>
      intro res h meta
      have hres : ([] : List FileMetadata) = res := Option.some.inj h
      subst hres
      simp
  | cons e rest ih =>
      intro res h meta
      simp only [searchGo] at h
      by_cases hmime : e.2.mimeType = folderMime
      · rw [if_pos hmime] at h
        exact (ih res h meta).trans
          (exists_mem_cons_iff_of_head_fails fun hc => hc.1 hmime).symm
      · rw [if_neg hmime] at h
        by_cases hsfx : listEndsWith e.2.name mdExt = true
        · rw [if_neg (not_not_intro hsfx)] at h
          cases hdesc : isDescendant fuel pm e.2.parents target with
          | none =>
              rw [hdesc] at h
              have h2 : (none : Option (List FileMetadata)) = some res := h
              cases h2
          | some b =>
              rw [hdesc] at h
              cases b with
              | false =>
                  have h2 : searchGo fuel pm target q rest = some res := h
                  have hreach : ¬ (target = "root" ∨
                      ∃ p, p ∈ e.2.parents ∧ AncWalk pm target p) := by
                    intro hr
                    have := (isDescendant_iff hdesc).mpr hr
                    cases this
                  exact (ih res h2 meta).trans
                    (exists_mem_cons_iff_of_head_fails
                      fun hc => hreach hc.2.2.1).symm
              | true =>
                  have hreach : target = "root" ∨
                      ∃ p, p ∈ e.2.parents ∧ AncWalk pm target p :=
                    (isDescendant_iff hdesc).mp rfl
                  by_cases hmatch : (containsIgnoreCase e.2.name q ||
                      containsIgnoreCase e.2.content q) = true
                  · rw [if_pos hmatch] at h
                    cases hrest : searchGo fuel pm target q rest with
                    | none =>
                        rw [hrest] at h
                        have h2 : (none : Option (List FileMetadata)) =
                            some res := h
                        cases h2
                    | some ms =>
                        rw [hrest] at h
                        have h2 : ({ e.2.toFileMetadata with
                            name := if e.2.mimeType = folderMime then e.2.name
                                    else fromMemoryName e.2.name } :: ms) =
                            res := Option.some.inj h
                        subst h2
                        simp only [List.mem_cons]
                        constructor
                        · rintro (rfl | hm)
                          · exact ⟨e, Or.inl rfl,
                              hmime, hsfx, hreach, hmatch,
                              by rw [if_neg hmime]⟩
                          · obtain ⟨e', he', hc⟩ := (ih ms hrest meta).mp hm
                            exact ⟨e', Or.inr he', hc⟩
                        · rintro ⟨e', he', hc⟩
                          rcases he' with rfl | he''
                          · left
                            rw [if_neg hc.1]
                            exact hc.2.2.2.2
                          · exact Or.inr ((ih ms hrest meta).mpr ⟨e', he'', hc⟩)
                  · rw [if_neg hmatch] at h
                    exact (ih res h meta).trans
                      (exists_mem_cons_iff_of_head_fails
                        fun hc => hmatch hc.2.2.2.1).symm
        · rw [if_pos hsfx] at h
          exact (ih res h meta).trans
            (exists_mem_cons_iff_of_head_fails fun hc => hsfx hc.2.1).symm

/-! ## C7: SearchFiles semantics -/

/-- C7: for every store (under the adapter's suffix invariant), base-folder
setting and query, a completed `SearchFiles` on the ephemeral adapter returns
exactly the non-folder items that match the query case-insensitively in their
stored name or raw content and whose parent chain reaches the scoping base
folder (the configured base folder, or the literal root, which is a universal
ancestor); folders and unreachable items are never returned. -/
theorem c7_searchFiles_spec (fuel : Nat) (a : MemoryAdapter) (q : List Char)
    (res : List FileMetadata) (hs : searchFilesMap fuel a q = some res)
    (hsuf : SuffixInv a.files) :
    ∀ meta, meta ∈ res ↔ ∃ e, e ∈ a.files ∧ e.2.mimeType ≠ folderMime ∧
      (baseTarget a = "root" ∨
        ∃ p, p ∈ e.2.parents ∧ AncWalk (pmOf a.files) (baseTarget a) p) ∧
      (containsIgnoreCase e.2.name q = true ∨
        containsIgnoreCase e.2.content q = true) ∧
      meta = { e.2.toFileMetadata with name := fromMemoryName e.2.name } := by
  intro meta
  rw [searchGo_spec fuel (pmOf a.files) (baseTarget a) q a.files res hs meta]
  constructor
  · rintro ⟨e, he, h1, _, h3, h4, h5⟩
    exact ⟨e, he, h1, h3, by simpa using h4, h5⟩
  · rintro ⟨e, he, h1, h3, h4, h5⟩
    refine ⟨e, he, h1, hsuf e he h1, h3, ?_, h5⟩
    rcases h4 with h4 | h4 <;> simp [h4]

/-- C7 witness: `c7_searchFiles_spec` on the concrete one-file adapter with
query "note": the stored "Note.md" matches by name and is returned with the
suffix stripped. -/
theorem c7_searchFiles_spec_witness :
    searchFilesMap 1 demoAdapter "note".toList =
      some [⟨"f1", "Note".toList, "text/markdown", 0, 1, 2, ["root"],
        false⟩] ∧
    SuffixInv demoAdapter.files ∧
    ((⟨"f1", "Note".toList, "text/markdown", 0, 1, 2, ["root"], false⟩ :
        FileMetadata) ∈
      [(⟨"f1", "Note".toList, "text/markdown", 0, 1, 2, ["root"], false⟩ :
        FileMetadata)] ↔
      ∃ e, e ∈ demoAdapter.files ∧ e.2.mimeType ≠ folderMime ∧
        (baseTarget demoAdapter = "root" ∨
          ∃ p, p ∈ e.2.parents ∧
            AncWalk (pmOf demoAdapter.files) (baseTarget demoAdapter) p) ∧
        (containsIgnoreCase e.2.name "note".toList = true ∨
          containsIgnoreCase e.2.content "note".toList = true) ∧
        (⟨"f1", "Note".toList, "text/markdown", 0, 1, 2, ["root"], false⟩ :
          FileMetadata) =
          { e.2.toFileMetadata with name := fromMemoryName e.2.name }) :=
  ⟨rfl, by decide,
    c7_searchFiles_spec 1 demoAdapter "note".toList _ rfl (by decide) _⟩

/-! ## C10: search matches the internal stored name -/

/-- C10: in the ephemeral adapter, `SearchFiles` matches the query against the
internally stored name, which under the adapter's invariant carries the
reserved ".md" suffix on every non-folder item; hence any non-empty query
that is (case-insensitively) a substring of ".md" — such as "md" or "." —
matches every non-folder item reachable from the base folder, regardless of
its display name or content: the completed search returns exactly the
reachable non-folder items. -/
theorem c10_internal_name_match (fuel : Nat) (a : MemoryAdapter)
    (q : List Char) (res : List FileMetadata)
    (hs : searchFilesMap fuel a q = some res) (hsuf : SuffixInv a.files)
    (_hq : q ≠ [])
    (hmd : listContainsSub (toLowerL mdExt) (toLowerL q) = true) :
    ∀ meta, meta ∈ res ↔ ∃ e, e ∈ a.files ∧ e.2.mimeType ≠ folderMime ∧
      (baseTarget a = "root" ∨
        ∃ p, p ∈ e.2.parents ∧ AncWalk (pmOf a.files) (baseTarget a) p) ∧
      meta = { e.2.toFileMetadata with name := fromMemoryName e.2.name } := by
  intro meta
  rw [searchGo_spec fuel (pmOf a.files) (baseTarget a) q a.files res hs meta]
  constructor
  · rintro ⟨e, he, h1, _, h3, _, h5⟩
    exact ⟨e, he, h1, h3, h5⟩
  · rintro ⟨e, he, h1, h3, h5⟩
    have hsfx := hsuf e he h1
    have hmatch : containsIgnoreCase e.2.name q = true :=
      containsIgnoreCase_of_suffix e.2.name q hsfx hmd
    exact ⟨e, he, h1, hsfx, h3, by simp [hmatch], h5⟩

/-- C10 witness: `c10_internal_name_match` on the concrete adapter with query
"md": display name "Note" and content "x" contain no "md", yet the item is
returned because the stored internal name "Note.md" matches. -/
theorem c10_internal_name_match_witness :
    searchFilesMap 1 demoAdapter "md".toList =
      some [⟨"f1", "Note".toList, "text/markdown", 0, 1, 2, ["root"],
        false⟩] ∧
    SuffixInv demoAdapter.files ∧ ("md".toList ≠ []) ∧
    listContainsSub (toLowerL mdExt) (toLowerL "md".toList) = true ∧
    containsIgnoreCase "Note".toList "md".toList = false ∧
    containsIgnoreCase "x".toList "md".toList = false ∧
    ((⟨"f1", "Note".toList, "text/markdown", 0, 1, 2, ["root"], false⟩ :
        FileMetadata) ∈
      [(⟨"f1", "Note".toList, "text/markdown", 0, 1, 2, ["root"], false⟩ :
        FileMetadata)] ↔
      ∃ e, e ∈ demoAdapter.files ∧ e.2.mimeType ≠ folderMime ∧
        (baseTarget demoAdapter = "root" ∨
          ∃ p, p ∈ e.2.parents ∧
            AncWalk (pmOf demoAdapter.files) (baseTarget demoAdapter) p) ∧
        (⟨"f1", "Note".toList, "text/markdown", 0, 1, 2, ["root"], false⟩ :
          FileMetadata) =
          { e.2.toFileMetadata with name := fromMemoryName e.2.name }) :=
  ⟨rfl, by decide, by decide, by decide, by decide, by decide,
    c10_internal_name_match 1 demoAdapter "md".toList _ rfl (by decide)
      (by decide) (by decide) _⟩

/-! ## Lemmas for the recursive delete -/

theorem mapFind_none_of_sublist {α β : Type} [DecidableEq α]
    {t m : List (α × β)} (h : t.Sublist m) (hn : KeysNodup m) {k : α}
    (hm : mapFind m k = none) : mapFind t k = none := by
  cases hf : mapFind t k with
  | none => rfl
  | some v => exact absurd (mapFind_of_sublist h hn hf) (by simp [hm])

theorem reach_inv {s : Store} {root id : String} (h : Reach s root id) :
    id = root ∨ ∃ f, mapFind s id = some f ∧
      ∃ p, p ∈ f.parents ∧ Reach s root p := by
  cases h with
  | refl => exact Or.inl rfl
  | step p k f hr hf hp => exact Or.inr ⟨f, hf, p, hp, hr⟩

theorem reach_mono {t s : Store} {root id : String} (hsub : t.Sublist s)
    (hn : KeysNodup s) (h : Reach t root id) : Reach s root id := by
  induction h with
  | refl => exact Reach.refl
  | step p k f _ hf hp ih =>
      exact Reach.step p k f ih (mapFind_of_sublist hsub hn hf) hp

theorem reach_trans {s : Store} {a b c : String} (h1 : Reach s a b)
    (h2 : Reach s b c) : Reach s a c := by
  induction h2 with
  | refl => exact h1
  | step p k f _ hf hp ih => exact Reach.step p k f ih hf hp

theorem mem_childIDs_iff {s : Store} {fid k : String} (hn : KeysNodup s) :
    k ∈ childIDs s fid ↔ ∃ f, mapFind s k = some f ∧ fid ∈ f.parents := by
  unfold childIDs
  constructor
  · intro hk
    obtain ⟨e, he, hek⟩ := List.mem_map.mp hk
    obtain ⟨hes, hpar⟩ := List.mem_filter.mp he
    obtain ⟨a, b⟩ := e
    subst hek
    refine ⟨b, mapFind_eq_some_of_mem hn hes, ?_⟩
    simpa using hpar
  · rintro ⟨f, hf, hp⟩
    refine List.mem_map.mpr ⟨(k, f), List.mem_filter.mpr
      ⟨mapFind_some_mem hf, by simpa using hp⟩, rfl⟩

theorem deleteAux_err : ∀ (fuel : Nat) (s : Store) (fid : String)
    (e : AdapterErr), deleteFileMapAux fuel s fid = some (Except.error e) →
    mapFind s fid = none := by
  intro fuel s fid e h
  cases fuel with
  | zero => cases h
  | succ n =>
      simp only [deleteFileMapAux] at h
      cases hfind : mapFind s fid with
      | none => rfl
      | some f =>
          rw [hfind] at h
          cases hch : delChildren (deleteFileMapAux n) s (childIDs s fid) with
          | none =>
              rw [hch] at h
              have h2 : (none : Option (Except AdapterErr Store)) =
                  some (Except.error e) := h
              cases h2
          | some t =>
              rw [hch] at h
              have h2 : some (Except.ok (mapErase t fid)) =
                  some (Except.error e) := h
              exact Except.noConfusion (Option.some.inj h2)

theorem delChildren_sublist
    (del : Store → String → Option (Except AdapterErr Store))
    (hdel : ∀ s c t, del s c = some (Except.ok t) → t.Sublist s) :
    ∀ cs s t, delChildren del s cs = some t → t.Sublist s := by
  intro cs
  induction cs with
  | nil =>
      intro s t h
      have h2 : s = t := Option.some.inj h
      subst h2
      exact List.Sublist.refl s
  | cons c cs ih =>
      intro s t h
      simp only [delChildren] at h
      cases hdc : del s c with
      | none =>
          rw [hdc] at h
          cases h
      | some r =>
          rw [hdc] at h
          cases r with
          | error e => exact ih s t h
          | ok s1 =>
              have h2 : delChildren del s1 cs = some t := h
              exact (ih s1 t h2).trans (hdel s c s1 hdc)

theorem deleteAux_sublist : ∀ (fuel : Nat) (s : Store) (fid : String)
    (s' : Store), deleteFileMapAux fuel s fid = some (Except.ok s') →
    s'.Sublist s := by
  intro fuel
  induction fuel with
  | zero =>
      intro s fid s' h
      cases h
  | succ n ih =>
      intro s fid s' h
      simp only [deleteFileMapAux] at h
      cases hfind : mapFind s fid with
      | none =>
          rw [hfind] at h
          exact Except.noConfusion (Option.some.inj h)
      | some f =>
          rw [hfind] at h
          cases hch : delChildren (deleteFileMapAux n) s (childIDs s fid) with
          | none =>
              rw [hch] at h
              have h2 : (none : Option (Except AdapterErr Store)) =
                  some (Except.ok s') := h
              cases h2
          | some t =>
              rw [hch] at h
              have h2 : mapErase t fid = s' :=
                Except.ok.inj (Option.some.inj h)
              subst h2
              exact (mapErase_sublist t fid).trans
                (delChildren_sublist _ ih (childIDs s fid) s t hch)

/-- Invariant of the child-deletion loop: starting from `s` and a worklist
`cs`, a completed loop yields a sub-store `t` in which every still-present
listed child has been removed, only items reachable from the worklist were
removed, and removal is closed under the child relation of `s`. -/
theorem delChildren_spec
    (del : Store → String → Option (Except AdapterErr Store))
    (hdelsub : ∀ s c t, del s c = some (Except.ok t) → t.Sublist s)
    (hspec : ∀ s c t, KeysNodup s → del s c = some (Except.ok t) →
      (∀ id, Reach s c id → mapFind t id = none) ∧
      (∀ id, ¬ Reach s c id → mapFind t id = mapFind s id))
    (herr : ∀ s c e, del s c = some (Except.error e) → mapFind s c = none) :
    ∀ cs s t, KeysNodup s → delChildren del s cs = some t →
      t.Sublist s ∧
      (∀ c, c ∈ cs → (mapFind s c).isSome → mapFind t c = none) ∧
      (∀ id, mapFind t id = none → (mapFind s id).isSome →
        ∃ c, c ∈ cs ∧ Reach s c id) ∧
      (∀ p id f, mapFind t p = none → (mapFind s p).isSome →
        mapFind s id = some f → p ∈ f.parents → mapFind t id = none) := by
  intro cs
  induction cs with
  | nil =>
      intro s t hn h
      have h2 : s = t := Option.some.inj h
      subst h2
      refine ⟨List.Sublist.refl s, by simp, ?_, ?_⟩
      · intro id h1 h2
        rw [h1] at h2
        cases h2
      · intro p id f hpt hps
        rw [hpt] at hps
        cases hps
  | cons c cs ih =>
      intro s t hn h
      simp only [delChildren] at h
      cases hdc : del s c with
      | none =>
          rw [hdc] at h
          cases h
      | some r =>
          rw [hdc] at h
          cases r with
          | error e =>
              have h2 : delChildren del s cs = some t := h
              have hcnone : mapFind s c = none := herr s c e hdc
              obtain ⟨hsub, hcov, hsc, hcl⟩ := ih s t hn h2
              refine ⟨hsub, ?_, ?_, hcl⟩
              · intro c' hc' hsome
                rcases List.mem_cons.mp hc' with rfl | hc'
                · rw [hcnone] at hsome
                  cases hsome
                · exact hcov c' hc' hsome
              · intro id h1 h2s
                obtain ⟨c', hc', hr⟩ := hsc id h1 h2s
                exact ⟨c', List.mem_cons_of_mem _ hc', hr⟩
          | ok t1 =>
              have h2 : delChildren del t1 cs = some t := h
              have hsub1 : t1.Sublist s := hdelsub s c t1 hdc
              have hn1 : KeysNodup t1 := keysNodup_of_sublist hsub1 hn
              obtain ⟨hA, hB⟩ := hspec s c t1 hn hdc
              obtain ⟨hsub2, hcov, hsc, hcl⟩ := ih t1 t hn1 h2
              refine ⟨hsub2.trans hsub1, ?_, ?_, ?_⟩
              · intro c' hc' hsome
                rcases List.mem_cons.mp hc' with rfl | hc'
                · exact mapFind_none_of_sublist hsub2 hn1 (hA c' Reach.refl)
                · cases hf1 : mapFind t1 c' with
                  | some v => exact hcov c' hc' (by simp [hf1])
                  | none => exact mapFind_none_of_sublist hsub2 hn1 hf1
              · intro id h1 h2s
                cases hf1 : mapFind t1 id with
                | none =>
                    by_cases hr : Reach s c id
                    · exact ⟨c, List.mem_cons_self c cs, hr⟩
                    · have hpres := hB id hr
                      rw [hf1] at hpres
                      rw [← hpres] at h2s
                      cases h2s
                | some v =>
                    obtain ⟨c', hc', hr⟩ := hsc id h1 (by simp [hf1])
                    exact ⟨c', List.mem_cons_of_mem _ hc',
                      reach_mono hsub1 hn hr⟩
              · intro p id f hpt hps hid hpmem
                cases hf1p : mapFind t1 p with
                | none =>
                    have hr : Reach s c p := by
                      by_contra hnr
                      have hpres := hB p hnr
                      rw [hf1p] at hpres
                      rw [← hpres] at hps
                      cases hps
                    have hrid : Reach s c id := Reach.step p id f hr hid hpmem
                    exact mapFind_none_of_sublist hsub2 hn1 (hA id hrid)
                | some w =>
                    cases hf1id : mapFind t1 id with
                    | none => exact mapFind_none_of_sublist hsub2 hn1 hf1id
                    | some f' =>
                        have hf'eq : f' = f := by
                          have hs := mapFind_of_sublist hsub1 hn hf1id
                          rw [hid] at hs
                          exact (Option.some.inj hs).symm
                        subst hf'eq
                        exact hcl p id f' hpt (by simp [hf1p]) hf1id hpmem

/-- Correctness of the fuelled recursive delete: a completed delete removes
exactly the item and its transitive descendants (through the parent chains of
the entry store) and leaves every other entry untouched. -/
theorem deleteAux_spec : ∀ (fuel : Nat) (s : Store) (fid : String)
    (s' : Store), KeysNodup s →
    deleteFileMapAux fuel s fid = some (Except.ok s') →
    (∀ id, Reach s fid id → mapFind s' id = none) ∧
    (∀ id, ¬ Reach s fid id → mapFind s' id = mapFind s id) := by
  intro fuel
  induction fuel with
  | zero =>
      intro s fid s' hn h
      cases h
  | succ n ih =>
      intro s fid s' hn h
      simp only [deleteFileMapAux] at h
      cases hfind : mapFind s fid with
      | none =>
          rw [hfind] at h
          exact Except.noConfusion (Option.some.inj h)
      | some f =>
          rw [hfind] at h
          cases hch : delChildren (deleteFileMapAux n) s (childIDs s fid) with
          | none =>
              rw [hch] at h
              have h2 : (none : Option (Except AdapterErr Store)) =
                  some (Except.ok s') := h
              cases h2
          | some t =>
              rw [hch] at h
              have hs' : mapErase t fid = s' :=
                Except.ok.inj (Option.some.inj h)
              subst hs'
              obtain ⟨hsubT, hcov, hsc, hcl⟩ :=
                delChildren_spec (deleteFileMapAux n) (deleteAux_sublist n)
                  (fun s c t hnn hh => ih s c t hnn hh) (deleteAux_err n)
                  (childIDs s fid) s t hn hch
              constructor
              · have main : ∀ id, Reach s fid id →
                    id = fid ∨ (mapFind t id = none ∧
                      (mapFind s id).isSome) := by
                  intro id hr
                  induction hr with
                  | refl => exact Or.inl rfl
                  | step p k g hrp hfk hpmem ihp =>
                      right
                      refine ⟨?_, by simp [hfk]⟩
                      rcases ihp with rfl | ⟨hpt, hps⟩
                      · have hk : k ∈ childIDs s p :=
                          (mem_childIDs_iff hn).mpr ⟨g, hfk, hpmem⟩
                        exact hcov k hk (by simp [hfk])
                      · exact hcl p k g hpt hps hfk hpmem
                intro id hreach
                rcases main id hreach with rfl | ⟨ht, _⟩
                · rw [mapFind_mapErase]
                  simp
                · rw [mapFind_mapErase]
                  by_cases hidf : id = fid
                  · simp [hidf]
                  · simp [hidf, ht]
              · intro id hnreach
                have hidf : id ≠ fid := fun hh => hnreach (hh ▸ Reach.refl)
                rw [mapFind_mapErase, if_neg hidf]
                cases hft : mapFind t id with
                | some v => exact (mapFind_of_sublist hsubT hn hft).symm
                | none =>
                    cases hfs : mapFind s id with
                    | none => rfl
                    | some w =>
                        obtain ⟨c, hc, hr⟩ := hsc id hft (by simp [hfs])
                        obtain ⟨fc, hfc, hfidp⟩ := (mem_childIDs_iff hn).mp hc
                        exact absurd (reach_trans
                          (Reach.step fid c fc Reach.refl hfc hfidp) hr)
                          hnreach

/-! ## C5: recursive delete -/

/-- C5: on the ephemeral adapter, after `DeleteFile(F)` completes successfully
on a stored folder `F`, the folder and every item whose parent chain
transitively reaches `F` (the `Reach` relation over the entry store) are
removed — a subsequent `GetFile` on any of them returns NotFound — while every
item outside `F`'s subtree is still present with its entry unchanged.
`KeysNodup` is the Go-map property that store keys are unique. -/
theorem c5_deleteFile_spec (fuel : Nat) (a a' : MemoryAdapter) (fid : String)
    (F : MemFile) (hn : KeysNodup a.files)
    (_hF : mapFind a.files fid = some F)
    (_hfolder : F.mimeType = folderMime)
    (hdel : deleteFileMap fuel a fid = some (Except.ok a')) :
    (∀ id, Reach a.files fid id → mapFind a'.files id = none ∧
      getFileMap a' id = Except.error AdapterErr.notFound) ∧
    (∀ id, ¬ Reach a.files fid id →
      mapFind a'.files id = mapFind a.files id) := by
  unfold deleteFileMap at hdel
  cases haux : deleteFileMapAux fuel a.files fid with
  | none =>
      rw [haux] at hdel
      cases hdel
  | some r =>
      rw [haux] at hdel
      cases r with
      | error e =>
          have h2 : some (Except.error e) =
              some (Except.ok a') := hdel
          exact Except.noConfusion (Option.some.inj h2)
      | ok s' =>
          have h2 : some (Except.ok ({ a with files := s' } : MemoryAdapter)) =
              some (Except.ok a') := hdel
          have ha' : ({ a with files := s' } : MemoryAdapter) = a' :=
            Except.ok.inj (Option.some.inj h2)
          subst ha'
          obtain ⟨hgone, hkept⟩ := deleteAux_spec fuel a.files fid s' hn haux
          constructor
          · intro id hr
            have hnone := hgone id hr
            refine ⟨hnone, ?_⟩
            simp [getFileMap, hnone]
          · intro id hnr
            exact hkept id hnr

/-- C5 witness: `c5_deleteFile_spec` on the concrete three-item store:
deleting the folder removes it and its child note, a subsequent `GetFile` on
the child reports NotFound, and the unrelated note is untouched. -/
theorem c5_deleteFile_spec_witness :
    KeysNodup treeAdapter.files ∧
    mapFind treeAdapter.files "d" = some dirFolder ∧
    dirFolder.mimeType = folderMime ∧
    deleteFileMap 3 treeAdapter "d" =
      some (Except.ok ⟨[("z", otherNote)], "", 9⟩) ∧
    (mapFind (⟨[("z", otherNote)], "", 9⟩ : MemoryAdapter).files "c" = none ∧
      getFileMap ⟨[("z", otherNote)], "", 9⟩ "c" =
        Except.error AdapterErr.notFound) ∧
    mapFind (⟨[("z", otherNote)], "", 9⟩ : MemoryAdapter).files "z" =
      mapFind treeAdapter.files "z" := by
  have hnz : ¬ Reach treeAdapter.files "d" "z" := by
    intro h
    rcases reach_inv h with h1 | ⟨f, hf, p, hp, hr⟩
    · exact absurd h1 (by decide)
    · rw [show mapFind treeAdapter.files "z" = some otherNote from rfl] at hf
      have hfo : otherNote = f := Option.some.inj hf
      subst hfo
      have hp' : p = "root" := by
        simpa [otherNote] using hp
      subst hp'
      rcases reach_inv hr with h2 | ⟨g, hg, q, hq, hr2⟩
      · exact absurd h2 (by decide)
      · rw [show mapFind treeAdapter.files "root" = none from rfl] at hg
        cases hg
  refine ⟨by decide, rfl, rfl, rfl, ?_, ?_⟩
  · exact (c5_deleteFile_spec 3 treeAdapter ⟨[("z", otherNote)], "", 9⟩ "d"
      dirFolder (by decide) rfl rfl rfl).1 "c"
      (Reach.step "d" "c" childNote Reach.refl rfl (by decide))
  · exact (c5_deleteFile_spec 3 treeAdapter ⟨[("z", otherNote)], "", 9⟩ "d"
      dirFolder (by decide) rfl rfl rfl).2 "z" hnz

end GophDrive
